import Mathlib

/-!
Verification of the pttc directive parser and expected-output generator
(src/pttc/src/parse.c) via a shallow embedding.

Strings are embedded as `List Char`; machine integers as `Nat`/`Int` with
explicit reductions modulo powers of two at the points where the C code
performs narrowing conversions.  The external collaborators (the yasm
line source / label namespace and the packet encoder) are parameters of
the embedding, matching their interface description.
-/

set_option autoImplicit false

namespace Pttc

abbrev Str := List Char

/-- Error conditions, mirroring the negative enum errcode values used by
parse.c (the concrete numeric values are opaque to this file; only
distinctness and sign matter). -/
inductive Err where
  | internal
  | no_mem
  | file_open
  | file_write
  | out_of_range
  | no_label
  | label_not_unique
  | label_name
  | parse
  | parse_missing_directive
  | parse_unknown_directive
  | parse_trailing_tokens
  | parse_unknown_char
  | parse_no_args
  | parse_int
  | parse_int_too_big
  | parse_ip_missing
  | no_directive
  | pt_lib
  | stop_process
  deriving DecidableEq, Repr

/-- The (negative) integer value returned through C `int` results for each
error condition. -/
def Err.code : Err → Int
  | .internal => -1
  | .no_mem => -2
  | .file_open => -3
  | .file_write => -4
  | .out_of_range => -5
  | .no_label => -6
  | .label_not_unique => -7
  | .label_name => -8
  | .parse => -9
  | .parse_missing_directive => -10
  | .parse_unknown_directive => -11
  | .parse_trailing_tokens => -12
  | .parse_unknown_char => -13
  | .parse_no_args => -14
  | .parse_int => -15
  | .parse_int_too_big => -16
  | .parse_ip_missing => -17
  | .no_directive => -18
  | .pt_lib => -19
  | .stop_process => -20

instance {ε α : Type} [DecidableEq ε] [DecidableEq α] : DecidableEq (Except ε α) :=
  fun x y =>
    match x, y with
    | .error a, .error b =>
      if h : a = b then isTrue (by rw [h])
      else isFalse (by intro he; cases he; exact h rfl)
    | .error _, .ok _ => isFalse (by intro h; cases h)
    | .ok _, .error _ => isFalse (by intro h; cases h)
    | .ok a, .ok b =>
      if h : a = b then isTrue (by rw [h])
      else isFalse (by intro he; cases he; exact h rfl)

/-- C `isspace` in the C locale. -/
def isspaceC (c : Char) : Bool :=
  c = ' ' || c = '\t' || c = '\n' || c = Char.ofNat 11 || c = Char.ofNat 12 || c = '\r'

/-- C `isdigit`. -/
def isdigitC (c : Char) : Bool := '0' ≤ c && c ≤ '9'

/-- C `isalpha` in the C locale. -/
def isalphaC (c : Char) : Bool := ('a' ≤ c && c ≤ 'z') || ('A' ≤ c && c ≤ 'Z')

/-- C `isalnum` in the C locale. -/
def isalnumC (c : Char) : Bool := isdigitC c || isalphaC c

/-- C `ispunct` in the C locale: printable, not alphanumeric, not space. -/
def ispunctC (c : Char) : Bool :=
  (33 ≤ c.toNat && c.toNat ≤ 47) || (58 ≤ c.toNat && c.toNat ≤ 64) ||
  (91 ≤ c.toNat && c.toNat ≤ 96) || (123 ≤ c.toNat && c.toNat ≤ 126)

/-- parse.c islabelchar: alphanumeric or underscore. -/
def islabelchar (c : Char) : Bool := isalnumC c || c = '_'

/-- Lowercase hex digits of `n`, most significant first, without leading
zeroes (one digit for zero) -- the rendering of C printf `%x`. -/
def hexMin (n : Nat) : Str := Nat.toDigits 16 n

/-- Hex digits of `n` left-padded with zeroes to width `w` -- the rendering
of C printf with a zero-fill width specifier. -/
def hexPad (w : Nat) (n : Nat) : Str :=
  List.replicate (w - (Nat.toDigits 16 n).length) '0' ++ Nat.toDigits 16 n

/-- Value of character `c` as a digit below `base`, if any (strtol digit
recognition: 0-9, then letters of either case). -/
def digitValAt (base : Nat) (c : Char) : Option Nat :=
  let v : Option Nat :=
    if isdigitC c then some (c.toNat - 48)
    else if 'a' ≤ c && c ≤ 'z' then some (c.toNat - 87)
    else if 'A' ≤ c && c ≤ 'Z' then some (c.toNat - 55)
    else none
  match v with
  | some v => if v < base then some v else none
  | none => none

/-- Longest prefix of digits below `base`, returned as digit values, with
the remaining characters. -/
def digitsSpan (base : Nat) : Str → (List Nat × Str)
  | [] => ([], [])
  | c :: r =>
    match digitValAt base c with
    | some v =>
      let (ds, rest) := digitsSpan base r
      (v :: ds, rest)
    | none => ([], c :: r)

/-- Numeric value of a digit list, most significant first. -/
def digitsVal (base : Nat) (ds : List Nat) : Nat := ds.foldl (fun a d => a * base + d) 0

/-- C `strtol`/`strtoll` with base 0: optional whitespace, optional sign,
`0x`/`0X` hex prefix or leading-`0` octal, else decimal.  Returns the value
and the remaining characters (the `endptr` position); `none` when no
conversion was performed (endptr equals the input).  The mathematical value
is returned without clamping: the callers in parse.c only compare against
small bounds or narrow the result, and every comparison made has the same
outcome for the clamped and the exact value. -/
def strtol0 (s : Str) : Option (Int × Str) :=
  let s1 := s.dropWhile isspaceC
  let sgn : Int := match s1 with
    | '-' :: _ => -1
    | _ => 1
  let s2 : Str := match s1 with
    | '-' :: r => r
    | '+' :: r => r
    | _ => s1
  match s2 with
  | '0' :: x :: r =>
    if x = 'x' || x = 'X' then
      match digitsSpan 16 r with
      | ([], _) => some (0, x :: r)
      | (ds, rest) => some (sgn * digitsVal 16 ds, rest)
    else
      match digitsSpan 8 (x :: r) with
      | (ds, rest) => some (sgn * digitsVal 8 ds, rest)
  | ['0'] => some (0, [])
  | _ =>
    match digitsSpan 10 s2 with
    | ([], _) => none
    | (ds, rest) => some (sgn * digitsVal 10 ds, rest)

/-- One C `strtok` step: skip leading delimiters; `none` when nothing is
left, otherwise the next token and the characters after the token (the
delimiter terminating the token, if any, is consumed -- strtok overwrites
it with the terminating null byte). -/
def tok1 (delims : Str) (s : Str) : Option (Str × Str) :=
  let s1 := s.dropWhile (fun c => delims.contains c)
  match s1 with
  | [] => none
  | _ =>
    let t := s1.takeWhile (fun c => !delims.contains c)
    match s1.drop t.length with
    | [] => some (t, [])
    | _ :: r2 => some (t, r2)

/-- parse.c parse_empty: succeeds exactly on an empty payload (strtok does
not move the payload pointer, so any nonempty payload -- even one made of
blanks only -- is reported as trailing tokens). -/
def parse_empty (payload : Str) : Except Err Unit :=
  if payload = [] then .ok () else .error .parse_trailing_tokens

/-- Loop of parse.c parse_tnt: separators are skipped, each t/n shifts the
64-bit accumulator and adds a bit, any other character is rejected. -/
def tntGo : Str → Nat → Nat → Except Err (Nat × Nat)
  | [], tnt, size => .ok (tnt, size)
  | c :: r, tnt, size =>
    if isspaceC c || c = '.' then tntGo r tnt size
    else
      let size := size + 1
      let tnt := (tnt * 2) % (2 ^ 64)
      if c = 'n' then tntGo r tnt size
      else if c = 't' then tntGo r (tnt + 1) size
      else .error .parse_unknown_char

/-- parse.c parse_tnt; returns (bit pattern, bit count). -/
def parse_tnt (payload : Str) : Except Err (Nat × Nat) :=
  tntGo payload 0 0

/-- parse.c parse_uint64: first comma/space token, strtoll, full-token
consumption required; the result is the uint64 narrowing of the value. -/
def parse_uint64 (payload : Str) : Except Err Nat :=
  match tok1 [' ', ','] payload with
  | none => .error .parse_no_args
  | some (t, _) =>
    match strtol0 t with
    | none => .error .parse_int
    | some (v, rest) =>
      if rest = [] then .ok ((v % ((2 : Int) ^ 64)).toNat) else .error .parse_int

/-- parse.c parse_uint8: like parse_uint64 but rejecting values above 0xff
with the int-too-big error before the uint8 narrowing. -/
def parse_uint8 (payload : Str) : Except Err Nat :=
  match tok1 [' ', ','] payload with
  | none => .error .parse_no_args
  | some (t, _) =>
    match strtol0 t with
    | none => .error .parse_int
    | some (v, rest) =>
      if rest = [] then
        if v > 0xff then .error .parse_int_too_big
        else .ok ((v % (256 : Int)).toNat)
      else .error .parse_int

/-- Exact-name lookup in a finite name/address table. -/
def extFind : List (Str × Nat) → Str → Option Nat
  | [], _ => none
  | (n, a) :: r, s => if n = s then some a else extFind r s

/-- Parser session state: the external assembler's label namespace (the
yasm collaborator's finite name table, read-only here), the local pt label
table, and the byte-offset counter pt_bytes_written.  The counter is a u64
in the source; it counts bytes actually emitted and is modelled as an
exact natural. -/
structure PState where
  ext : List (Str × Nat)
  pt_labels : List (Str × Nat)
  pt_bytes_written : Nat
  deriving DecidableEq

/-- External collaborator yasm_lookup_label: resolves a name in the
assembler's namespace, failing with the no-label error when absent. -/
def yasm_lookup_label (p : PState) (name : Str) : Except Err Nat :=
  match extFind p.ext name with
  | some a => .ok a
  | none => .error .no_label

/-- Modelled from the spec: l_lookup lives in the repository's label-list
module (yasm.c), which is not among the given sources.  Spec 4.1: exact
string match over the ordered table, with a distinct not-found failure. -/
def l_lookup : List (Str × Nat) → Str → Except Err Nat
  | [], _ => .error .no_label
  | (n, a) :: r, name => if n = name then .ok a else l_lookup r name

/-- Modelled from the spec: l_append lives in the repository's label-list
module (yasm.c), which is not among the given sources.  Spec 4.1: append
fails if the name already exists in this table; insertion is in order of
first appearance. -/
def l_append (t : List (Str × Nat)) (name : Str) (addr : Nat) :
    Except Err (List (Str × Nat)) :=
  match l_lookup t name with
  | .ok _ => .error .label_not_unique
  | .error _ => .ok (t ++ [(name, addr)])

/-- parse.c parse_ip: payload is tokenized as compression code and address;
the address token is either a `%name` reference resolved through
yasm_lookup_label only, or an integer literal.  Returns (ip, ipc). -/
def parse_ip (p : PState) (payload : Str) : Except Err (Nat × Nat) :=
  match tok1 [' ', ':'] payload with
  | none => .error .parse_no_args
  | some (t1, r1) =>
    match strtol0 t1 with
    | none => .error .parse_int
    | some (v, rest) =>
      if rest = [] then
        let ipc := (v % (256 : Int)).toNat
        match tok1 [' ', ':'] r1 with
        | none => .error .parse_ip_missing
        | some (t2, r2) =>
          let ipRes : Except Err Nat :=
            match t2 with
            | '%' :: name => yasm_lookup_label p name
            | _ =>
              match strtol0 t2 with
              | none => .error .parse_int
              | some (a, arest) =>
                if arest = [] then .ok ((a % ((2 : Int) ^ 64)).toNat)
                else .error .parse_int
          match ipRes with
          | .error e => .error e
          | .ok ip =>
            match tok1 [' '] r2 with
            | some _ => .error .parse_trailing_tokens
            | none => .ok (ip, ipc)
      else .error .parse_int

/-- The three execution modes accepted by the mode.exec directive. -/
inductive ExecMode where
  | ptem_16bit
  | ptem_32bit
  | ptem_64bit
  deriving DecidableEq, Repr

/-- The external packet encoder, one operation per packet kind, each
returning a byte count (non-negative) or a negative status code.  The
encoder state handle is left abstract: each p_process call uses a freshly
initialized encoder over the same configuration. -/
structure Encoder where
  psb : Int
  psbend : Int
  pad : Int
  ovf : Int
  tnt_8 : Nat → Nat → Int
  tnt_64 : Nat → Nat → Int
  tip : Nat → Nat → Int
  tip_pge : Nat → Nat → Int
  tip_pgd : Nat → Nat → Int
  fup : Nat → Nat → Int
  mode_exec : ExecMode → Int
  mode_tsx : Nat → Int
  pip : Nat → Int
  tsc : Nat → Int
  cbr : Nat → Int

/-- Label extraction at the top of p_process: the text before the first
colon of the directive buffer is the candidate label name, and blanks after
the colon are skipped before the directive token. -/
def splitLabel (s : Str) : Option Str × Str :=
  let l := s.takeWhile (fun c => c ≠ ':')
  match s.dropWhile (fun c => c ≠ ':') with
  | _ :: d => (some l, d.dropWhile isspaceC)
  | [] => (none, s)

/-- The directive-matching chain of p_process: parses the payload for the
matched directive and invokes the corresponding encoder operation,
propagating payload parse errors.  The returned Int is the encoder's
result (bytes written, or a negative encoder status). -/
def p_dispatch (p : PState) (e : Encoder) (directive payload : Str) : Except Err Int :=
  if directive = "psb".toList then do
    let _ ← parse_empty payload
    pure e.psb
  else if directive = "psbend".toList then do
    let _ ← parse_empty payload
    pure e.psbend
  else if directive = "pad".toList then do
    let _ ← parse_empty payload
    pure e.pad
  else if directive = "ovf".toList then do
    let _ ← parse_empty payload
    pure e.ovf
  else if directive = "tnt".toList then do
    let (tnt, size) ← parse_tnt payload
    pure (e.tnt_8 (tnt % 256) size)
  else if directive = "tnt64".toList then do
    let (tnt, size) ← parse_tnt payload
    pure (e.tnt_64 tnt size)
  else if directive = "tip".toList then do
    let (ip, ipc) ← parse_ip p payload
    pure (e.tip ip ipc)
  else if directive = "tip.pge".toList then do
    let (ip, ipc) ← parse_ip p payload
    pure (e.tip_pge ip ipc)
  else if directive = "tip.pgd".toList then do
    let (ip, ipc) ← parse_ip p payload
    pure (e.tip_pgd ip ipc)
  else if directive = "fup".toList then do
    let (ip, ipc) ← parse_ip p payload
    pure (e.fup ip ipc)
  else if directive = "mode.exec".toList then
    if payload = "16bit".toList then pure (e.mode_exec .ptem_16bit)
    else if payload = "64bit".toList then pure (e.mode_exec .ptem_64bit)
    else if payload = "32bit".toList then pure (e.mode_exec .ptem_32bit)
    else .error .parse
  else if directive = "mode.tsx".toList then
    if payload = "begin".toList then pure (e.mode_tsx 1)
    else if payload = "abort".toList then pure (e.mode_tsx 2)
    else if payload = "commit".toList then pure (e.mode_tsx 0)
    else .error .parse
  else if directive = "pip".toList then do
    let cr3 ← parse_uint64 payload
    pure (e.pip cr3)
  else if directive = "tsc".toList then do
    let tsc ← parse_uint64 payload
    pure (e.tsc tsc)
  else if directive = "cbr".toList then do
    let cbr ← parse_uint8 payload
    pure (e.cbr cbr)
  else .error .parse_unknown_directive

/-- Tail of p_process after the label uniqueness check: directive matching,
encoding, deferred label registration at the pre-encode offset, and the
advance of the byte counter.  Returns the C result (bytes written, or a
negative error code) together with the session state. -/
def p_process_rest (p : PState) (e : Encoder) (lbl? : Option Str)
    (directive payload : Str) : Int × PState :=
  if directive = [] then (Err.code .parse_missing_directive, p)
  else if directive = ".exp".toList then
    match l_append p.pt_labels "eos".toList p.pt_bytes_written with
    | .error er => (er.code, p)
    | .ok t => (Err.code .stop_process, { p with pt_labels := t })
  else
    match p_dispatch p e directive payload with
    | .error er => (er.code, p)
    | .ok bytes =>
      if bytes < 0 then (Err.code .pt_lib, p)
      else
        match lbl? with
        | some l =>
          match l_append p.pt_labels l p.pt_bytes_written with
          | .error er => (er.code, p)
          | .ok t =>
            (bytes, { p with pt_labels := t,
                             pt_bytes_written := p.pt_bytes_written + bytes.toNat })
        | none =>
          (bytes, { p with pt_bytes_written := p.pt_bytes_written + bytes.toNat })

/-- parse.c p_process: one directive (pd name and payload).  A candidate
label is checked eagerly for uniqueness against both namespaces; the body
is then matched and encoded, and on success a pending label is appended at
the pre-encode offset before the counter advances. -/
def p_process (p : PState) (e : Encoder) (name payload : Str) : Int × PState :=
  match splitLabel name with
  | (some l, directive) =>
    if (extFind p.ext l).isSome then (Err.code .label_not_unique, p)
    else
      match l_lookup p.pt_labels l with
      | .ok _ => (Err.code .label_not_unique, p)
      | .error _ => p_process_rest p e (some l) directive payload
  | (none, directive) => p_process_rest p e none directive payload

/-- Address masking for the `.N` suffix of an external placeholder as the
machine executes it: parse.c computes address AND ((1 shifted left by 8N)
minus 1), where the shifted 1 is a 32-bit int.  For 0 <= N <= 3 the shift
is well defined and the mask is the low-N-byte mask.  For 8N >= 32 the
shift reaches the int width -- undefined behavior in C -- and mainstream
targets (x86, ARM) take the shift count mod 32; the embedding follows that
execution, so the mask degenerates (e.g. to 0 for N = 4 or N = 8).  Since
8N is a multiple of 8, the masked count stays in 0/8/16/24 and the int
value converts to u64 exactly.  A negative parsed N (also undefined) is
taken as shift count zero. -/
def maskAddr (addr : Nat) (n : Int) : Nat :=
  addr &&& ((1 <<< ((8 * n.toNat) % 32)) - 1)

/-- Rendering of one placeholder of the expected-output pass: receives the
text after the `%` and returns the rendered text plus the remaining line.
Follows p_gen_expfile: optional leading `0` or `?` modifier, label name of
at most 255 label characters, resolution first against the external yasm
namespace, then the local table (local hits render without a 0x prefix);
an external hit optionally consumes a `.N` masking suffix and renders with
question-mark masking when requested. -/
def doLabel (p : PState) (r : Str) : Except Err (Str × Str) :=
  match r with
  | [] => .error .no_label
  | c :: _ =>
    if isspaceC c then .error .no_label
    else
      let zeroPad : Bool := c = '0' || c = '?'
      let qmark : Bool := c = '?'
      let r1 : Str := if c = '0' || c = '?' then r.drop 1 else r
      let lbl := r1.takeWhile islabelchar
      let rest := r1.drop lbl.length
      if lbl.length > 255 then .error .label_name
      else
        match extFind p.ext lbl with
        | none =>
          match l_lookup p.pt_labels lbl with
          | .error er => .error er
          | .ok addr =>
            .ok ((if zeroPad then hexPad 16 addr else hexMin addr), rest)
        | some addr0 =>
          let maskStep : Except Err (Nat × Int × Str) :=
            match rest with
            | '.' :: r2 =>
              match strtol0 r2 with
              | none => .error .parse_int
              | some (n, endp) =>
                match endp with
                | [] => .ok (maskAddr addr0 n, 8 - n, endp)
                | d :: _ =>
                  if isspaceC d || ispunctC d then .ok (maskAddr addr0 n, 8 - n, endp)
                  else .error .parse_int
            | _ => .ok (addr0, 0, rest)
          match maskStep with
          | .error er => .error er
          | .ok (addr, qsize, rest2) =>
            if qmark then
              let qn := qsize.toNat
              let qs := (List.replicate qn ['?', '?']).flatten
              let bytes := ((List.range 8).drop qn).map
                (fun i => hexPad 2 ((addr >>> ((7 - i) * 8)) % 256))
              .ok ('0' :: 'x' :: (qs ++ bytes.flatten), rest2)
            else if zeroPad then .ok ('0' :: 'x' :: hexPad 16 addr, rest2)
            else .ok ('0' :: 'x' :: hexMin addr, rest2)

/-- One file write of `k` characters against an optional remaining write
budget; exceeding the budget models a failing fprintf. -/
def wr (b : Option Nat) (k : Nat) : Except Err (Option Nat) :=
  match b with
  | none => .ok none
  | some m => if k ≤ m then .ok (some (m - k)) else .error .file_write

/-- Fuelled placeholder-expansion loop of p_gen_expfile over one annotation
line: text up to each `%` is written verbatim, each placeholder is rendered
by doLabel.  The fuel only bounds the recursion; expandLine supplies enough
for any input. -/
def expandLineF (p : PState) : Nat → Str → Option Nat → Except Err (Str × Option Nat)
  | 0, _, _ => .error .internal
  | fuel + 1, line, b =>
    let pre := line.takeWhile (fun c => c ≠ '%')
    match line.drop pre.length with
    | [] =>
      match wr b pre.length with
      | .error er => .error er
      | .ok b1 => .ok (pre, b1)
    | _ :: r =>
      match wr b pre.length with
      | .error er => .error er
      | .ok b1 =>
        match doLabel p r with
        | .error er => .error er
        | .ok (chunk, line2) =>
          match wr b1 chunk.length with
          | .error er => .error er
          | .ok b2 =>
            match expandLineF p fuel line2 b2 with
            | .error er => .error er
            | .ok (out, b3) => .ok (pre ++ chunk ++ out, b3)

/-- Expansion of one annotation line (without the trailing newline, which
the caller writes separately). -/
def expandLine (p : PState) (line : Str) (b : Option Nat) : Except Err (Str × Option Nat) :=
  expandLineF p (line.length + 1) line b

/-- The observable file system: an association of file names to contents.
fopen with mode w truncates or creates, fprintf appends, remove deletes. -/
abbrev FS := List (Str × Str)

/-- Content of a file, if present. -/
def fsGet : FS → Str → Option Str
  | [], _ => none
  | (m, w) :: r, n => if m = n then some w else fsGet r n

/-- fopen(n, "w"): truncate an existing file or create it empty-then-set. -/
def fsSet : FS → Str → Str → FS
  | [], n, v => [(n, v)]
  | (m, w) :: r, n, v => if m = n then (n, v) :: r else (m, w) :: fsSet r n v

/-- Append output to an open file. -/
def fsApp : FS → Str → Str → FS
  | [], _, _ => []
  | (m, w) :: r, n, v => if m = n then (m, w ++ v) :: r else (m, w) :: fsApp r n v

/-- remove(n). -/
def fsRemove : FS → Str → FS
  | [], _ => []
  | (m, w) :: r, n => if m = n then fsRemove r n else (m, w) :: fsRemove r n

/-- parse.c expfilename: fileroot, then a dash and the extra payload when
the payload is nonempty, then the .exp suffix. -/
def expfilename (fileroot extra : Str) : Str :=
  fileroot ++ (if extra = [] then [] else '-' :: extra) ++ ".exp".toList

/-- The .pt output filename built in p_alloc: fileroot plus the suffix. -/
def ptFilename (fileroot : Str) : Str := fileroot ++ ".pt".toList

/-- Outcome of yasm_pd_parse for one source line: a pt directive (name and
payload), no directive on the line, or a parse failure. -/
inductive PdRes where
  | dir (name payload : Str)
  | nodir
  | fail (e : Err)
  deriving DecidableEq

/-- One line handed out by the yasm line source during the expected-output
pass: its directive-parse outcome and its raw text. -/
structure SrcLine where
  pd : PdRes
  raw : Str
  deriving DecidableEq

/-- State of the expected-output pass: the file system, the names printed
to stdout so far, the name of the currently open .exp file, and the
remaining write budget. -/
structure GenSt where
  fs : FS
  printed : List Str
  cur : Str
  budget : Option Nat
  deriving DecidableEq

/-- Annotation text of a raw line: everything after the first semicolon,
with a `#` comment and trailing blanks stripped; none when the line has no
semicolon (such lines produce no output at all). -/
def annotOf (raw : Str) : Option Str :=
  if raw.contains ';' then
    let after := (raw.dropWhile (fun c => c ≠ ';')).drop 1
    let noComment := after.takeWhile (fun c => c ≠ '#')
    some ((noComment.reverse.dropWhile isspaceC).reverse)
  else none

/-- Processing of one non-checkpoint line in the expected-output loop:
expand its annotation (if any) and write it with a trailing newline. -/
def genAnnot (p : PState) (raw : Str) (st : GenSt) : Except Err GenSt :=
  match annotOf raw with
  | none => .ok st
  | some t =>
    match expandLine p t st.budget with
    | .error e => .error e
    | .ok (out, b1) =>
      match wr b1 1 with
      | .error e => .error e
      | .ok b2 =>
        .ok { st with fs := fsApp st.fs st.cur (out ++ ['\n']), budget := b2 }

/-- Main loop of p_gen_expfile over the remaining source lines.  A line
whose directive is .exp closes the current expected-output file, prints its
name and opens the next one; other lines contribute their annotation text.
Returns the loop's exit code (out_of_range at the end of the input) and the
state at exit. -/
def genLoop (p : PState) (fileroot : Str) : List SrcLine → GenSt → Err × GenSt
  | [], st => (.out_of_range, st)
  | l :: ls, st =>
    match l.pd with
    | .fail e => (e, st)
    | .dir name payload =>
      if name = ".exp".toList then
        let fn := expfilename fileroot payload
        genLoop p fileroot ls
          { st with printed := st.printed ++ [st.cur], cur := fn,
                    fs := fsSet st.fs fn [] }
      else
        match genAnnot p l.raw st with
        | .error e => (e, st)
        | .ok st2 => genLoop p fileroot ls st2
    | .nodir =>
      match genAnnot p l.raw st with
      | .error e => (e, st)
      | .ok st2 => genLoop p fileroot ls st2

/-- Initial state of the expected-output pass: the first file is named
after the payload of the .exp directive that ended pass one and is opened
for writing. -/
def genInit (fileroot extra0 : Str) (fs0 : FS) (pr0 : List Str) (budget : Option Nat) :
    GenSt :=
  { fs := fsSet fs0 (expfilename fileroot extra0) [],
    printed := pr0,
    cur := expfilename fileroot extra0,
    budget := budget }

/-- parse.c p_gen_expfile: runs the loop, then the shared exit block --
reaching the end of the input (out_of_range) closes the final file,
prints its name and reports success; any other exit closes and removes the
file being written and propagates the error. -/
def p_gen_expfile (p : PState) (fileroot extra0 : Str) (lines : List SrcLine)
    (fs0 : FS) (pr0 : List Str) (budget : Option Nat) :
    Except Err Unit × FS × List Str :=
  let r := genLoop p fileroot lines (genInit fileroot extra0 fs0 pr0 budget)
  if r.1 = .out_of_range then (.ok (), r.2.fs, r.2.printed ++ [r.2.cur])
  else (.error r.1, fsRemove r.2.fs r.2.cur, r.2.printed)

/-- Loop of p_start over the pt directives of the script: each directive is
processed, a stop result hands over to the expected-output pass using the
stopping directive's payload, any failure ends the run, and a success
appends the encoder's bytes to the .pt file (the packet bytes themselves
are outside this model; only their count is observable here).  fwrite to
the .pt file is modelled as succeeding. -/
def p_start_loop (e : Encoder) (fileroot : Str) (expLines : List SrcLine)
    (budget : Option Nat) :
    List (Str × Str) → PState → FS → Int × FS × List Str × PState
  | [], p, fs => (0, fs, [], p)
  | (name, payload) :: ds, p, fs =>
    let (bytes, p2) := p_process p e name payload
    if bytes = Err.code .stop_process then
      match p_gen_expfile p2 fileroot payload expLines fs [] budget with
      | (.ok _, fs2, pr) => (0, fs2, pr, p2)
      | (.error er, fs2, pr) => (er.code, fs2, pr, p2)
    else if bytes < 0 then (bytes, fs, [], p2)
    else
      p_start_loop e fileroot expLines budget ds p2
        (fsApp fs (ptFilename fileroot) (List.replicate bytes.toNat ' '))

/-- parse.c parse: opens the .pt file for writing, runs p_start, then
closes (p_close_files only closes; it never removes the .pt file) and
returns the status together with the final file system and the printed
names. -/
def parseRun (p0 : PState) (e : Encoder) (fileroot : Str)
    (dirs : List (Str × Str)) (expLines : List SrcLine) (budget : Option Nat)
    (fs0 : FS) : Int × FS × List Str :=
  let fs1 := fsSet fs0 (ptFilename fileroot) []
  match p_start_loop e fileroot expLines budget dirs p0 fs1 with
  | (code, fs2, pr, _) => (code, fs2, pr)

/-! ## Specification-side definitions used to state the claims -/

/-- Characters accepted inside a tnt payload. -/
def tntAllowed (c : Char) : Bool := c = 't' || c = 'n' || c = '.' || isspaceC c

/-- The payload characters that contribute bits. -/
def tntBits (s : Str) : Str := s.filter (fun c => c = 't' || c = 'n')

/-- One accumulator step per bit character: shift within u64, then set the
low bit for a taken branch. -/
def tntStep (a : Nat) (c : Char) : Nat :=
  (a * 2) % (2 ^ 64) + (if c = 't' then 1 else 0)

/-- The bit pattern denoted by a tnt payload, MSB first. -/
def tntVal (s : Str) : Nat := (tntBits s).foldl tntStep 0

/-- An encoder whose every operation reports `n`. -/
def encConst (n : Int) : Encoder :=
  { psb := n, psbend := n, pad := n, ovf := n,
    tnt_8 := fun _ _ => n, tnt_64 := fun _ _ => n,
    tip := fun _ _ => n, tip_pge := fun _ _ => n, tip_pgd := fun _ _ => n,
    fup := fun _ _ => n, mode_exec := fun _ => n, mode_tsx := fun _ => n,
    pip := fun _ => n, tsc := fun _ => n, cbr := fun _ => n }

/-- The low `n` bytes of an address rendered MSB first as two-digit hex
byte pairs. -/
def lowBytesHex (addr : Nat) (n : Nat) : Str :=
  ((List.range n).reverse.map (fun j => hexPad 2 ((addr / 256 ^ j) % 256))).flatten

/-- An annotation-only source line as the yasm line source reports it:
no directive, raw text starting with the semicolon. -/
def mkAnn (t : Str) : SrcLine := { pd := .nodir, raw := ';' :: t }

/-- Annotation text that the expected-output pass reproduces verbatim: no
placeholder, no comment character, no trailing blank. -/
def annClean (t : Str) : Bool :=
  decide ('%' ∉ t) && decide ('#' ∉ t) &&
  decide (t.reverse.dropWhile isspaceC = t.reverse)

/-- Concatenation of annotation lines, each terminated by a newline. -/
def joinNl (ts : List Str) : Str := (ts.map (fun t => t ++ ['\n'])).flatten

/-! ## Properties -/

theorem Err.code_neg (e : Err) : e.code < 0 := by cases e <;> decide

theorem tnt_sep_not_bit (c : Char) (h : (isspaceC c || c = '.') = true) :
    (c = 't' || c = 'n') = false := by
  by_cases h1 : c = 't'
  · subst h1; exact absurd h (by decide)
  · by_cases h2 : c = 'n'
    · subst h2; exact absurd h (by decide)
    · simp [h1, h2]

theorem tntGo_ok : ∀ (s : Str) (t z : Nat), (∀ c ∈ s, tntAllowed c = true) →
    tntGo s t z = .ok ((tntBits s).foldl tntStep t, z + (tntBits s).length)
  | [], t, z, _ => by simp [tntGo, tntBits]
  | c :: r, t, z, hall => by
    have hc : tntAllowed c = true := hall c (List.mem_cons_self c r)
    have hr : ∀ x ∈ r, tntAllowed x = true := fun x hx => hall x (List.mem_cons_of_mem c hx)
    by_cases hsep : (isspaceC c || c = '.') = true
    · have hnb := tnt_sep_not_bit c hsep
      simp only [tntGo, hsep, if_true, tntBits, List.filter_cons, hnb]
      simpa [tntBits] using tntGo_ok r t z hr
    · have hb : c = 't' ∨ c = 'n' := by
        by_cases h1 : c = 't'
        · exact Or.inl h1
        · by_cases h2 : c = 'n'
          · exact Or.inr h2
          · exfalso
            simp only [tntAllowed, h1, h2] at hc
            simp only [decide_False, Bool.false_or] at hc
            exact hsep (by rw [Bool.or_comm]; exact hc)
      rcases hb with rfl | rfl
      · simp only [tntGo, hsep, if_false, tntBits, List.filter_cons]
        norm_num
        simpa [tntBits, tntStep, Nat.add_assoc, Nat.add_comm 1] using
          tntGo_ok r ((t * 2) % (2 ^ 64) + 1) (z + 1) hr
      · simp only [tntGo, hsep, if_false, tntBits, List.filter_cons]
        norm_num
        simpa [tntBits, tntStep, Nat.add_assoc, Nat.add_comm 1] using
          tntGo_ok r ((t * 2) % (2 ^ 64)) (z + 1) hr

theorem tntGo_err : ∀ (s : Str) (t z : Nat), ¬ (∀ c ∈ s, tntAllowed c = true) →
    tntGo s t z = .error .parse_unknown_char
  | [], _, _, hall => absurd (by simp) hall
  | c :: r, t, z, hall => by
    by_cases hc : tntAllowed c = true
    · have hrest : ¬ (∀ x ∈ r, tntAllowed x = true) := by
        intro hr
        exact hall (by
          intro x hx
          rcases List.mem_cons.mp hx with rfl | hx2
          · exact hc
          · exact hr x hx2)
      by_cases hsep : (isspaceC c || c = '.') = true
      · simp only [tntGo, hsep, if_true]
        exact tntGo_err r t z hrest
      · have hb : c = 't' ∨ c = 'n' := by
          by_cases h1 : c = 't'
          · exact Or.inl h1
          · by_cases h2 : c = 'n'
            · exact Or.inr h2
            · exfalso
              simp only [tntAllowed, h1, h2] at hc
              simp only [decide_False, Bool.false_or] at hc
              exact hsep (by rw [Bool.or_comm]; exact hc)
        rcases hb with rfl | rfl
        · simp only [tntGo, hsep, if_false]
          norm_num
          exact tntGo_err r _ _ hrest
        · simp only [tntGo, hsep, if_false]
          norm_num
          exact tntGo_err r _ _ hrest
    · have hsep : ¬ ((isspaceC c || c = '.') = true) := by
        intro hs
        apply hc
        simp only [tntAllowed]
        rcases Bool.or_eq_true_iff.mp hs with h | h
        · simp [h]
        · simp [h]
      have h1 : ¬ (c = 't') := by
        intro h; apply hc; simp [tntAllowed, h]
      have h2 : ¬ (c = 'n') := by
        intro h; apply hc; simp [tntAllowed, h]
      simp only [tntGo, hsep, if_false]
      simp [h1, h2]

/-- C6: parse_tnt succeeds exactly when the payload holds only t, n, dot
and blank characters; t contributes a 1 bit and n a 0 bit, MSB first in
order of appearance, separators are skipped, and any other character is an
unknown-character error; payload "t n t" gives size 3 value 5, and payload
"...tt.." gives size 2 value 3. -/
theorem claim_c6_parse_tnt (payload : Str) :
    (parse_tnt payload = .ok (tntVal payload, (tntBits payload).length)
       ∨ parse_tnt payload = .error .parse_unknown_char)
    ∧ (parse_tnt payload = .error .parse_unknown_char
         ↔ ¬ (∀ c ∈ payload, tntAllowed c = true))
    ∧ parse_tnt ("t n t".toList) = .ok (5, 3)
    ∧ parse_tnt ("...tt..".toList) = .ok (3, 2) := by
  refine ⟨?_, ⟨?_, ?_⟩, by decide, by decide⟩
  · by_cases h : ∀ c ∈ payload, tntAllowed c = true
    · exact Or.inl (by simpa [parse_tnt, tntVal] using tntGo_ok payload 0 0 h)
    · exact Or.inr (by simpa [parse_tnt] using tntGo_err payload 0 0 h)
  · intro herr h
    have := tntGo_ok payload 0 0 h
    rw [parse_tnt] at herr
    rw [this] at herr
    exact Except.noConfusion herr
  · intro h
    simpa [parse_tnt] using tntGo_err payload 0 0 h

/-- C7: parse_uint8 takes a single integer literal and fails with the
value-too-large error exactly when the literal's value exceeds 8 bits;
"256" is rejected as too large and "0xFF" parses to 255. -/
theorem claim_c7_parse_uint8 :
    (∀ (payload t r : Str) (v : Int),
        tok1 [' ', ','] payload = some (t, r) →
        strtol0 t = some (v, []) →
        ((0xff < v → parse_uint8 payload = .error .parse_int_too_big) ∧
         (v ≤ 0xff → parse_uint8 payload = .ok ((v % 256).toNat))))
    ∧ parse_uint8 ("256".toList) = .error .parse_int_too_big
    ∧ parse_uint8 ("0xFF".toList) = .ok 255 := by
  refine ⟨?_, by decide, by decide⟩
  intro payload t r v h1 h2
  constructor
  · intro hv
    simp [parse_uint8, h1, h2, hv]
  · intro hv
    have hnv : ¬ ((0xff : Int) < v) := not_lt.mpr hv
    simp [parse_uint8, h1, h2, hnv]

theorem claim_c7_witness :
    tok1 [' ', ','] ("256".toList) = some ("256".toList, []) ∧
    strtol0 ("256".toList) = some (256, []) ∧
    parse_uint8 ("256".toList) = .error .parse_int_too_big :=
  ⟨by decide, by decide,
    (claim_c7_parse_uint8.1 ("256".toList) ("256".toList) [] 256
      (by decide) (by decide)).1 (by decide)⟩

theorem l_lookup_append_self (t : List (Str × Nat)) (n : Str) (a : Nat) (er : Err)
    (h : l_lookup t n = .error er) : l_lookup (t ++ [(n, a)]) n = .ok a := by
  induction t with
  | nil => simp [l_lookup]
  | cons hd tl ih =>
    obtain ⟨m, b⟩ := hd
    by_cases hm : m = n
    · subst hm
      rw [l_lookup, if_pos rfl] at h
      exact Except.noConfusion h
    · rw [List.cons_append, l_lookup, if_neg hm]
      rw [l_lookup, if_neg hm] at h
      exact ih h

/-- C4: a directive line carrying a label that already exists in either
the external namespace or the local table fails with the label-not-unique
error; the result does not depend on the encoder or on the directive
payload (no encode is attempted) and the session state is unchanged (the
existing binding is never overwritten). -/
theorem claim_c4_label_not_unique (p : PState) (name l directive : Str)
    (hsplit : splitLabel name = (some l, directive))
    (hdup : (extFind p.ext l).isSome = true ∨ ∃ a, l_lookup p.pt_labels l = .ok a) :
    ∀ (e : Encoder) (payload : Str),
      p_process p e name payload = (Err.code .label_not_unique, p) := by
  intro e payload
  simp only [p_process, hsplit]
  rcases hdup with h | ⟨a, h⟩
  · simp [h]
  · by_cases hext : (extFind p.ext l).isSome = true
    · simp [hext]
    · simp only [Bool.not_eq_true] at hext
      simp [hext, h]

theorem claim_c4_witness :
    splitLabel ("lbl: cbr".toList) = (some ("lbl".toList), "cbr".toList) ∧
    p_process ⟨[], [("lbl".toList, 3)], 0⟩ (encConst 2) ("lbl: cbr".toList)
        ("5".toList)
      = (Err.code .label_not_unique, ⟨[], [("lbl".toList, 3)], 0⟩) :=
  ⟨by decide,
    claim_c4_label_not_unique ⟨[], [("lbl".toList, 3)], 0⟩ ("lbl: cbr".toList)
      ("lbl".toList) ("cbr".toList) (by decide) (Or.inr ⟨3, by decide⟩)
      (encConst 2) ("5".toList)⟩

/-- C1: a successfully processed directive that carries a label registers
the label only after the encoder succeeded, stamped with the byte-offset
counter as it was before the directive's bytes (so lookup after the append
returns the pre-encode offset), and then advances the counter by the
encoder's byte count; when the encoder fails, the label is not recorded
and the state is unchanged. -/
theorem claim_c1_label_registration (p : PState) (e : Encoder)
    (name payload l directive : Str)
    (hsplit : splitLabel name = (some l, directive)) :
    (∀ (b : Int) (p2 : PState), p_process p e name payload = (b, p2) → 0 ≤ b →
        p2.pt_labels = p.pt_labels ++ [(l, p.pt_bytes_written)] ∧
        p2.pt_bytes_written = p.pt_bytes_written + b.toNat ∧
        l_lookup p2.pt_labels l = .ok p.pt_bytes_written)
    ∧ (∀ bytes : Int, extFind p.ext l = none →
        l_lookup p.pt_labels l = .error .no_label →
        p_dispatch p e directive payload = .ok bytes → bytes < 0 →
        p_process p e name payload = (Err.code .pt_lib, p)) := by
  constructor
  · intro b p2 hp hb
    simp only [p_process, hsplit] at hp
    by_cases hext : (extFind p.ext l).isSome = true
    · rw [if_pos hext] at hp
      injection hp with h1 h2
      rw [← h1] at hb
      exact absurd hb (by decide)
    · rw [if_neg hext] at hp
      cases hl : l_lookup p.pt_labels l with
      | ok a =>
        simp only [hl] at hp
        injection hp with h1 h2
        rw [← h1] at hb
        exact absurd hb (by decide)
      | error er =>
        simp only [hl] at hp
        simp only [p_process_rest] at hp
        by_cases hd0 : directive = []
        · rw [if_pos hd0] at hp
          injection hp with h1 h2
          rw [← h1] at hb
          exact absurd hb (by decide)
        · rw [if_neg hd0] at hp
          by_cases hdexp : directive = ".exp".toList
          · rw [if_pos hdexp] at hp
            cases he : l_append p.pt_labels ("eos".toList) p.pt_bytes_written with
            | error er2 =>
              simp only [he] at hp
              injection hp with h1 h2
              have := Err.code_neg er2
              omega
            | ok t2 =>
              simp only [he] at hp
              injection hp with h1 h2
              rw [← h1] at hb
              exact absurd hb (by decide)
          · rw [if_neg hdexp] at hp
            cases hdisp : p_dispatch p e directive payload with
            | error er2 =>
              simp only [hdisp] at hp
              injection hp with h1 h2
              have := Err.code_neg er2
              omega
            | ok bytes =>
              simp only [hdisp] at hp
              by_cases hneg : bytes < 0
              · rw [if_pos hneg] at hp
                injection hp with h1 h2
                rw [← h1] at hb
                exact absurd hb (by decide)
              · rw [if_neg hneg] at hp
                simp only [l_append, hl] at hp
                injection hp with h1 h2
                refine ⟨?_, ?_, ?_⟩
                · rw [← h2]
                · rw [← h2, ← h1]
                · rw [← h2]
                  exact l_lookup_append_self p.pt_labels l p.pt_bytes_written er hl
  · intro bytes hext hl hdisp hneg
    have hd0 : directive ≠ [] := by
      intro h
      subst h
      have : p_dispatch p e [] payload = .error .parse_unknown_directive := rfl
      rw [this] at hdisp
      exact Except.noConfusion hdisp
    have hdexp : directive ≠ ".exp".toList := by
      intro h
      subst h
      have : p_dispatch p e (".exp".toList) payload = .error .parse_unknown_directive := rfl
      rw [this] at hdisp
      exact Except.noConfusion hdisp
    have hexts : (extFind p.ext l).isSome = false := by rw [hext]; rfl
    simp only [p_process, hsplit, hexts, Bool.false_eq_true, if_false, hl,
      p_process_rest, if_neg hd0, if_neg hdexp, hdisp, if_pos hneg]

theorem claim_c1_witness :
    splitLabel ("lbl: cbr".toList) = (some ("lbl".toList), "cbr".toList) ∧
    (0 : Int) ≤ 2 ∧
    [("lbl".toList, (10 : Nat))] = [] ++ [("lbl".toList, 10)] ∧
    l_lookup [("lbl".toList, 10)] ("lbl".toList) = .ok 10 := by
  have h := (claim_c1_label_registration ⟨[], [], 10⟩ (encConst 2)
      ("lbl: cbr".toList) ("5".toList) ("lbl".toList) ("cbr".toList)
      (by decide)).1 2 ⟨[], [("lbl".toList, 10)], 12⟩ (by decide) (by decide)
  exact ⟨by decide, by decide, h.1, h.2.2⟩

/-- C10: parse_ip resolves a %name address operand only against the
external assembler's namespace: the parse result is invariant under any
change to the local Symbol Table, and a name absent from the external
namespace fails with the lookup error even when the local table binds it,
so directive-defined labels can never serve as ip operands. -/
theorem claim_c10_parse_ip_external_only (p : PState) (payload t1 r1 nm r2 : Str)
    (v : Int)
    (h1 : tok1 [' ', ':'] payload = some (t1, r1))
    (h2 : strtol0 t1 = some (v, []))
    (h3 : tok1 [' ', ':'] r1 = some ('%' :: nm, r2))
    (hext : extFind p.ext nm = none) :
    parse_ip p payload = .error .no_label
    ∧ ∀ (loc : List (Str × Nat)) (cnt : Nat),
        parse_ip ⟨p.ext, loc, cnt⟩ payload = parse_ip p payload := by
  constructor
  · simp [parse_ip, h1, h2, h3, yasm_lookup_label, hext]
  · intro loc cnt
    rfl

theorem claim_c10_witness :
    extFind ([] : List (Str × Nat)) ("iplbl".toList) = none ∧
    l_lookup [("iplbl".toList, 7)] ("iplbl".toList) = .ok 7 ∧
    parse_ip ⟨[], [("iplbl".toList, 7)], 0⟩ ("3 %iplbl".toList) = .error .no_label :=
  ⟨by decide, by decide,
    (claim_c10_parse_ip_external_only ⟨[], [("iplbl".toList, 7)], 0⟩
      ("3 %iplbl".toList) ("3".toList) ("%iplbl".toList) ("iplbl".toList) [] 3
      (by decide) (by decide) (by decide) (by decide)).1⟩

theorem takeWhile_append_all (q : Char → Bool) : ∀ (xs ys : Str),
    (∀ c ∈ xs, q c = true) → (∀ c, ys.head? = some c → q c = false) →
    (xs ++ ys).takeWhile q = xs
  | [], [], _, _ => rfl
  | [], y :: yr, _, hys => by
    simp only [List.nil_append]
    exact List.takeWhile_cons_of_neg (by simp [hys y rfl])
  | x :: xr, ys, hxs, hys => by
    simp only [List.cons_append]
    rw [List.takeWhile_cons_of_pos (hxs x (List.mem_cons_self x xr))]
    rw [takeWhile_append_all q xr ys
      (fun c hc => hxs c (List.mem_cons_of_mem x hc)) hys]

theorem islabelchar_not_space (c : Char) (h : islabelchar c = true) :
    isspaceC c = false := by
  by_contra hs
  rw [Bool.not_eq_false] at hs
  simp only [isspaceC, Bool.or_eq_true, decide_eq_true_eq] at hs
  rcases hs with ((((h1 | h1) | h1) | h1) | h1) | h1 <;> subst h1 <;>
    exact absurd h (by decide)

theorem maskAddr_eq_mod (addr : Nat) (n : Nat) (hn : n ≤ 3) :
    maskAddr addr (n : Int) = addr % 256 ^ n := by
  unfold maskAddr
  rw [Int.toNat_natCast, Nat.mod_eq_of_lt (by omega : 8 * n < 32),
    Nat.shiftLeft_eq, one_mul, Nat.and_pow_two_sub_one_eq_mod, pow_mul]
  norm_num

theorem qmark_bytes_eq (a : Nat) (n : Nat) (hn : n ≤ 8) :
    (((List.range 8).drop (8 - n)).map
       (fun i => hexPad 2 ((a >>> ((7 - i) * 8)) % 256))).flatten
      = lowBytesHex a n := by
  have hr : List.range 8 = [0, 1, 2, 3, 4, 5, 6, 7] := by decide
  interval_cases n <;>
    simp [hr, lowBytesHex, Nat.shiftRight_eq_div_pow,
      show List.range 0 = [] from rfl,
      show List.range 1 = [0] from by decide,
      show List.range 2 = [0, 1] from by decide,
      show List.range 3 = [0, 1, 2] from by decide,
      show List.range 4 = [0, 1, 2, 3] from by decide,
      show List.range 5 = [0, 1, 2, 3, 4] from by decide,
      show List.range 6 = [0, 1, 2, 3, 4, 5] from by decide,
      show List.range 7 = [0, 1, 2, 3, 4, 5, 6] from by decide]

theorem doLabel_ext_qmark (p : PState) (name suffix : Str) (addr : Nat) (n : Int)
    (hname : ∀ c ∈ name, islabelchar c = true) (hlen : name.length ≤ 255)
    (hext : extFind p.ext name = some addr)
    (hsuf : strtol0 suffix = some (n, [])) :
    doLabel p ('?' :: (name ++ '.' :: suffix)) =
      .ok ('0' :: 'x' ::
        ((List.replicate (8 - n).toNat ['?', '?']).flatten ++
         (((List.range 8).drop (8 - n).toNat).map
            (fun i => hexPad 2 ((maskAddr addr n >>> ((7 - i) * 8)) % 256))).flatten),
        []) := by
  have htw : (name ++ '.' :: suffix).takeWhile islabelchar = name :=
    takeWhile_append_all islabelchar name ('.' :: suffix) hname
      (by intro c hc; injection hc with hc; subst hc; decide)
  have hnl : ¬ (name.length > 255) := by omega
  rw [doLabel]
  simp only [show isspaceC '?' = false from by decide, Bool.false_eq_true, if_false,
    show decide (('?' : Char) = '0') = false from by decide,
    show decide (('?' : Char) = '?') = true from by decide,
    decide_True, decide_False, eq_self_iff_true, Bool.false_or, Bool.or_true,
    if_true, List.drop_succ_cons, List.drop_zero,
    htw, List.drop_left, hnl, hext, hsuf]

theorem doLabel_ext_plain (p : PState) (name : Str) (addr : Nat)
    (hname : ∀ c ∈ name, islabelchar c = true) (hlen : name.length ≤ 255)
    (hne : name ≠ [])
    (hhead : ∀ c, name.head? = some c → c ≠ '0' ∧ c ≠ '?')
    (hext : extFind p.ext name = some addr) :
    doLabel p name = .ok ('0' :: 'x' :: hexMin addr, []) := by
  cases name with
  | nil => exact absurd rfl hne
  | cons c nm =>
    have hc : islabelchar c = true := hname c (List.mem_cons_self c nm)
    have hh := hhead c rfl
    have htw : (c :: nm).takeWhile islabelchar = c :: nm := by
      have := takeWhile_append_all islabelchar (c :: nm) [] hname (by intro x hx; cases hx)
      simpa using this
    rw [doLabel]
    simp only [islabelchar_not_space c hc, Bool.false_eq_true, if_false,
      decide_eq_false hh.1, decide_eq_false hh.2, Bool.or_self, htw]
    have hnl : ¬ ((c :: nm).length > 255) := by
      simpa using hlen
    simp only [List.drop_length, hnl, if_false, hext]

theorem doLabel_local_pad (p : PState) (name : Str) (addr : Nat)
    (hname : ∀ c ∈ name, islabelchar c = true) (hlen : name.length ≤ 255)
    (hext : extFind p.ext name = none)
    (hloc : l_lookup p.pt_labels name = .ok addr) :
    doLabel p ('0' :: name) = .ok (hexPad 16 addr, []) := by
  have htw : name.takeWhile islabelchar = name := by
    have := takeWhile_append_all islabelchar name [] hname (by intro x hx; cases hx)
    simpa using this
  have hnl : ¬ (name.length > 255) := by omega
  rw [doLabel]
  simp only [show isspaceC '0' = false from by decide, Bool.false_eq_true, if_false,
    show decide (('0' : Char) = '0') = true from by decide,
    decide_True, decide_False, eq_self_iff_true, Bool.true_or, if_true,
    List.drop_succ_cons, List.drop_zero, htw,
    List.drop_length, hnl, hext, hloc]

theorem doLabel_local_plain (p : PState) (name : Str) (addr : Nat)
    (hname : ∀ c ∈ name, islabelchar c = true) (hlen : name.length ≤ 255)
    (hne : name ≠ [])
    (hhead : ∀ c, name.head? = some c → c ≠ '0' ∧ c ≠ '?')
    (hext : extFind p.ext name = none)
    (hloc : l_lookup p.pt_labels name = .ok addr) :
    doLabel p name = .ok (hexMin addr, []) := by
  cases name with
  | nil => exact absurd rfl hne
  | cons c nm =>
    have hc : islabelchar c = true := hname c (List.mem_cons_self c nm)
    have hh := hhead c rfl
    have htw : (c :: nm).takeWhile islabelchar = c :: nm := by
      have := takeWhile_append_all islabelchar (c :: nm) [] hname (by intro x hx; cases hx)
      simpa using this
    rw [doLabel]
    simp only [islabelchar_not_space c hc, Bool.false_eq_true, if_false,
      decide_eq_false hh.1, decide_eq_false hh.2, Bool.or_self, htw]
    have hnl : ¬ ((c :: nm).length > 255) := by
      simpa using hlen
    simp only [List.drop_length, hnl, if_false, hext, hloc]

theorem doLabel_absent_pad (p : PState) (name : Str)
    (hname : ∀ c ∈ name, islabelchar c = true) (hlen : name.length ≤ 255)
    (hext : extFind p.ext name = none)
    (hloc : l_lookup p.pt_labels name = .error .no_label) :
    doLabel p ('0' :: name) = .error .no_label := by
  have htw : name.takeWhile islabelchar = name := by
    have := takeWhile_append_all islabelchar name [] hname (by intro x hx; cases hx)
    simpa using this
  have hnl : ¬ (name.length > 255) := by omega
  rw [doLabel]
  simp only [show isspaceC '0' = false from by decide, Bool.false_eq_true, if_false,
    show decide (('0' : Char) = '0') = true from by decide,
    decide_True, decide_False, eq_self_iff_true, Bool.true_or, if_true,
    List.drop_succ_cons, List.drop_zero, htw,
    List.drop_length, hnl, hext, hloc]

theorem expandLine_single (p : PState) (r chunk : Str)
    (h : doLabel p r = .ok (chunk, [])) :
    expandLine p ('%' :: r) none = .ok (chunk, none) := by
  simp [expandLine, expandLineF, wr, h]

theorem expandLine_single_err (p : PState) (r : Str) (e : Err)
    (h : doLabel p r = .error e) :
    expandLine p ('%' :: r) none = .error e := by
  simp [expandLine, expandLineF, wr, h]

/-- C2 flags a code bug.  The claim, with the spec, takes the `.N` suffix
(N a parsed decimal, 0 <= N <= 8) to restrict the external address to its
low N bytes via address AND ((1 shifted by 8N) minus 1).  parse.c:350
computes that mask with a 32-bit int 1, so for N >= 4 the shift amount 8N
reaches the int width and the computation is undefined; under the
shift-count masking of mainstream targets the mask degenerates to
2^(8N mod 32) - 1 and the claimed restriction is not performed: at address
0x1122334455667788 with N = 4 the masked address is 0, not the claimed
0x55667788.  For N <= 3 the shift is well defined and the code behaves
exactly as claimed: the address is reduced mod 256^N and question-mark
masking renders 0x, (8-N) repetitions of ??, and the low N bytes of the
masked address as two-digit hex byte pairs. -/
theorem claim_c2_masking_code_bug (p : PState) (name suffix : Str) (addr n : Nat)
    (hn : n ≤ 3)
    (hname : ∀ c ∈ name, islabelchar c = true) (hlen : name.length ≤ 255)
    (hext : extFind p.ext name = some addr)
    (hsuf : strtol0 suffix = some ((n : Int), [])) :
    (maskAddr addr (n : Int) = addr % 256 ^ n
     ∧ expandLine p ('%' :: '?' :: (name ++ '.' :: suffix)) none =
        .ok ('0' :: 'x' :: ((List.replicate (8 - n) ['?', '?']).flatten ++
          lowBytesHex (addr % 256 ^ n) n), none))
    ∧ maskAddr 0x1122334455667788 (4 : Int) = 0
    ∧ (0x1122334455667788 : Nat) % 256 ^ 4 = 0x55667788
    ∧ maskAddr 0x1122334455667788 (4 : Int)
        ≠ (0x1122334455667788 : Nat) % 256 ^ 4 := by
  refine ⟨⟨maskAddr_eq_mod addr n hn, ?_⟩, by decide, by decide, by decide⟩
  have hdl := doLabel_ext_qmark p name suffix addr (n : Int) hname hlen hext hsuf
  have htn : ((8 : Int) - (n : Int)).toNat = 8 - n := by omega
  rw [htn, maskAddr_eq_mod addr n hn,
    qmark_bytes_eq (addr % 256 ^ n) n (by omega)] at hdl
  exact expandLine_single p _ _ hdl

theorem claim_c2_witness :
    extFind [("extlabel".toList, 0x1122334455667788)] ("extlabel".toList)
      = some 0x1122334455667788 ∧
    strtol0 ("2".toList) = some (2, []) ∧
    expandLine ⟨[("extlabel".toList, 0x1122334455667788)], [], 0⟩
        ("%?extlabel.2".toList) none
      = .ok ("0x????????????7788".toList, none) ∧
    expandLine ⟨[("extlabel".toList, 0x1122334455667788)], [], 0⟩
        ("%?extlabel.4".toList) none
      = .ok ("0x????????00000000".toList, none) ∧
    ("0x????????00000000".toList : Str) ≠ "0x????????55667788".toList := by
  refine ⟨by decide, by decide, ?_, by decide, by decide⟩
  have h := (claim_c2_masking_code_bug ⟨[("extlabel".toList, 0x1122334455667788)], [], 0⟩
      ("extlabel".toList) ("2".toList) 0x1122334455667788 2 (by decide) (by decide)
      (by decide) (by decide) (by decide)).1.2
  have e1 : "%?extlabel.2".toList = '%' :: '?' :: ("extlabel".toList ++ '.' :: "2".toList) := by
    decide
  rw [e1, h]
  decide

/-- C3 as stated is false on the code: a placeholder resolved from the
local Symbol Table is rendered without a 0x prefix.  With mylabel at local
address 0x2A, %0mylabel renders as 000000000000002a, not as the claimed
0x000000000000002a. -/
theorem claim_c3_counterexample :
    expandLine ⟨[], [("mylabel".toList, 0x2A)], 0⟩ ("%0mylabel".toList) none
        = .ok ("000000000000002a".toList, none)
    ∧ expandLine ⟨[], [("mylabel".toList, 0x2A)], 0⟩ ("%0mylabel".toList) none
        ≠ .ok ("0x000000000000002a".toList, none) := by
  constructor <;> decide

/-- C3 amended: a placeholder is resolved first against the external
namespace and then against the local Symbol Table, absence in both being
the fatal lookup error; a local hit renders as bare hex digits without a
0x prefix -- padded to 16 digits exactly when the 0 modifier was given --
while an external hit renders with the 0x prefix. -/
theorem claim_c3_amended (p : PState) (name : Str) (addr : Nat)
    (hname : ∀ c ∈ name, islabelchar c = true) (hlen : name.length ≤ 255)
    (hne : name ≠ [])
    (hhead : ∀ c, name.head? = some c → c ≠ '0' ∧ c ≠ '?') :
    (extFind p.ext name = none → l_lookup p.pt_labels name = .ok addr →
       expandLine p ('%' :: '0' :: name) none = .ok (hexPad 16 addr, none)
       ∧ expandLine p ('%' :: name) none = .ok (hexMin addr, none))
    ∧ (extFind p.ext name = some addr →
       expandLine p ('%' :: name) none = .ok ('0' :: 'x' :: hexMin addr, none))
    ∧ (extFind p.ext name = none →
       l_lookup p.pt_labels name = .error .no_label →
       expandLine p ('%' :: '0' :: name) none = .error .no_label) := by
  refine ⟨?_, ?_, ?_⟩
  · intro hext hloc
    exact ⟨expandLine_single p _ _ (doLabel_local_pad p name addr hname hlen hext hloc),
           expandLine_single p _ _
             (doLabel_local_plain p name addr hname hlen hne hhead hext hloc)⟩
  · intro hext
    exact expandLine_single p _ _
      (doLabel_ext_plain p name addr hname hlen hne hhead hext)
  · intro hext hloc
    exact expandLine_single_err p _ _ (doLabel_absent_pad p name hname hlen hext hloc)

theorem claim_c3_witness :
    extFind ([] : List (Str × Nat)) ("mylabel".toList) = none ∧
    l_lookup [("mylabel".toList, 0x2A)] ("mylabel".toList) = .ok 0x2A ∧
    expandLine ⟨[], [("mylabel".toList, 0x2A)], 0⟩ ("%0mylabel".toList) none
      = .ok ("000000000000002a".toList, none) ∧
    expandLine ⟨[], [("mylabel".toList, 0x2A)], 0⟩ ("%mylabel".toList) none
      = .ok ("2a".toList, none) := by
  have h := (claim_c3_amended ⟨[], [("mylabel".toList, 0x2A)], 0⟩ ("mylabel".toList)
      0x2A (by decide) (by decide) (by decide)
      (by intro c hc; injection hc with hc; subst hc; exact ⟨by decide, by decide⟩)).1
      (by decide) (by decide)
  refine ⟨by decide, by decide, ?_, ?_⟩
  · have e1 : "%0mylabel".toList = '%' :: '0' :: "mylabel".toList := by decide
    rw [e1, h.1]
    decide
  · have e2 : "%mylabel".toList = '%' :: "mylabel".toList := by decide
    rw [e2, h.2]
    decide

theorem fsGet_fsSet_self : ∀ (fs : FS) (n v : Str), fsGet (fsSet fs n v) n = some v
  | [], n, v => by simp [fsSet, fsGet]
  | (m, w) :: r, n, v => by
    by_cases h : m = n
    · subst h
      simp [fsSet, fsGet]
    · simp [fsSet, fsGet, h, fsGet_fsSet_self r n v]

theorem fsGet_fsSet_other : ∀ (fs : FS) (n q v : Str), n ≠ q →
    fsGet (fsSet fs n v) q = fsGet fs q
  | [], n, q, v, h => by simp [fsSet, fsGet, h]
  | (m, w) :: r, n, q, v, h => by
    by_cases hm : m = n
    · subst hm
      simp [fsSet, fsGet, h]
    · simp [fsSet, fsGet, hm, fsGet_fsSet_other r n q v h]

theorem fsGet_fsApp_self : ∀ (fs : FS) (n v w : Str), fsGet fs n = some w →
    fsGet (fsApp fs n v) n = some (w ++ v)
  | [], n, v, w, h => by simp [fsGet] at h
  | (m, u) :: r, n, v, w, h => by
    by_cases hm : m = n
    · subst hm
      simp [fsGet] at h
      simp [fsApp, fsGet, h]
    · simp only [fsGet, hm, if_false] at h
      simp [fsApp, fsGet, hm, fsGet_fsApp_self r n v w h]

theorem fsGet_fsApp_other : ∀ (fs : FS) (n q v : Str), n ≠ q →
    fsGet (fsApp fs n v) q = fsGet fs q
  | [], _, _, _, _ => by simp [fsApp]
  | (m, u) :: r, n, q, v, h => by
    by_cases hm : m = n
    · subst hm
      simp [fsApp, fsGet, h, fsGet_fsApp_other r]
    · simp [fsApp, fsGet, hm, fsGet_fsApp_other r n q v h]

theorem fsApp_nil : ∀ (fs : FS) (n : Str), fsApp fs n [] = fs
  | [], _ => rfl
  | (m, u) :: r, n => by
    by_cases hm : m = n
    · subst hm
      simp [fsApp]
    · simp [fsApp, hm, fsApp_nil r n]

theorem fsApp_fsApp : ∀ (fs : FS) (n u v : Str),
    fsApp (fsApp fs n u) n v = fsApp fs n (u ++ v)
  | [], _, _, _ => rfl
  | (m, w) :: r, n, u, v => by
    by_cases hm : m = n
    · subst hm
      simp [fsApp]
    · simp [fsApp, hm, fsApp_fsApp r n u v]

theorem fsGet_fsRemove_self : ∀ (fs : FS) (n : Str), fsGet (fsRemove fs n) n = none
  | [], _ => rfl
  | (m, w) :: r, n => by
    by_cases hm : m = n
    · subst hm
      simp [fsRemove, fsGet_fsRemove_self r]
    · simp [fsRemove, fsGet, hm, fsGet_fsRemove_self r n]

theorem fsGet_fsRemove_other : ∀ (fs : FS) (n q : Str), n ≠ q →
    fsGet (fsRemove fs n) q = fsGet fs q
  | [], _, _, _ => rfl
  | (m, w) :: r, n, q, h => by
    by_cases hm : m = n
    · subst hm
      simp [fsRemove, fsGet, h, fsGet_fsRemove_other r]
    · simp [fsRemove, fsGet, hm, fsGet_fsRemove_other r n q h]

theorem expandLine_plain (p : PState) (t : Str) (h : '%' ∉ t) :
    expandLine p t none = .ok (t, none) := by
  have htw : t.takeWhile (fun c => !decide (c = '%')) = t := by
    have := takeWhile_append_all (fun c => !decide (c = '%')) t []
      (fun c hc => by
        have hne : c ≠ '%' := fun e => h (e ▸ hc)
        simp [hne])
      (fun c hc => by cases hc)
    simpa using this
  rw [expandLine, expandLineF]
  simp [htw, List.drop_length, wr]

theorem annotOf_mkAnn (t : Str) (hc : annClean t = true) : annotOf (';' :: t) = some t := by
  simp only [annClean, Bool.and_eq_true, decide_eq_true_eq] at hc
  obtain ⟨⟨h1, h2⟩, h3⟩ := hc
  have htw : t.takeWhile (fun c => decide (c ≠ '#')) = t := by
    have := takeWhile_append_all (fun c => decide (c ≠ '#')) t []
      (fun c hc2 => decide_eq_true (fun e => h2 (e ▸ hc2)))
      (fun c hc2 => by cases hc2)
    simpa using this
  simp only [annotOf]
  rw [if_pos (by simp)]
  rw [List.dropWhile_cons_of_neg (by simp)]
  simp only [List.drop_succ_cons, List.drop_zero, htw, h3, List.reverse_reverse]

theorem genLoop_anns (p : PState) (fileroot : Str) :
    ∀ (A : List Str) (ls : List SrcLine) (st : GenSt),
    (∀ t ∈ A, annClean t = true) → st.budget = none →
    genLoop p fileroot (A.map mkAnn ++ ls) st =
      genLoop p fileroot ls { st with fs := fsApp st.fs st.cur (joinNl A) }
  | [], ls, st, _, _ => by simp [joinNl, fsApp_nil]
  | t :: A, ls, st, hA, hb => by
    have ht := hA t (List.mem_cons_self t A)
    have hrest : ∀ x ∈ A, annClean x = true :=
      fun x hx => hA x (List.mem_cons_of_mem t hx)
    have hpl : '%' ∉ t := by
      simp only [annClean, Bool.and_eq_true, decide_eq_true_eq] at ht
      exact ht.1.1
    simp only [List.map_cons, List.cons_append]
    simp only [genLoop, mkAnn, genAnnot, annotOf_mkAnn t ht, hb,
      expandLine_plain p t hpl, wr]
    rw [genLoop_anns p fileroot A ls _ hrest rfl]
    simp only [joinNl, List.map_cons, List.flatten_cons]
    rw [fsApp_fsApp]

/-- C5: every terminator line of the expected-output pass closes the file
being written, prints its name, and opens the next file, whose name is
fileroot[-extra].exp with extra the terminator's payload; a pass entered at
a checkpoint with payload a over a script holding annotations A, a
checkpoint with payload b, and annotations B produces exactly root-a.exp
with the lines of A and root-b.exp with the lines of B, printing both
names. -/
theorem claim_c5_checkpoints (p : PState) (fileroot a b raw : Str) (A B : List Str)
    (hA : ∀ t ∈ A, annClean t = true) (hB : ∀ t ∈ B, annClean t = true)
    (hab : expfilename fileroot a ≠ expfilename fileroot b) :
    p_gen_expfile p fileroot a
        (A.map mkAnn ++ ({ pd := .dir (".exp".toList) b, raw := raw } : SrcLine)
           :: B.map mkAnn) [] [] none
      = (.ok (),
         [(expfilename fileroot a, joinNl A), (expfilename fileroot b, joinNl B)],
         [expfilename fileroot a, expfilename fileroot b])
    ∧ (a ≠ [] →
        expfilename fileroot a = fileroot ++ '-' :: (a ++ ".exp".toList))
    ∧ expfilename fileroot [] = fileroot ++ ".exp".toList := by
  refine ⟨?_, ?_, by simp [expfilename]⟩
  · simp only [p_gen_expfile, genInit]
    rw [genLoop_anns p fileroot A _ _ hA rfl]
    simp only [genLoop, eq_self_iff_true, if_true]
    rw [show List.map mkAnn B = List.map mkAnn B ++ [] from (List.append_nil _).symm]
    rw [genLoop_anns p fileroot B _ _ hB rfl]
    simp only [genLoop]
    simp [fsSet, fsApp, hab, Ne.symm hab]
  · intro ha
    simp [expfilename, ha]

theorem claim_c5_witness :
    expfilename ("r".toList) ("a".toList) = "r-a.exp".toList ∧
    p_gen_expfile ⟨[], [], 0⟩ ("r".toList) ("a".toList)
        [mkAnn ("x".toList),
         { pd := .dir (".exp".toList) ("b".toList), raw := [] },
         mkAnn ("y".toList)] [] [] none
      = (.ok (),
         [("r-a.exp".toList, "x\n".toList), ("r-b.exp".toList, "y\n".toList)],
         ["r-a.exp".toList, "r-b.exp".toList]) := by
  refine ⟨by decide, ?_⟩
  have h := (claim_c5_checkpoints ⟨[], [], 0⟩ ("r".toList) ("a".toList) ("b".toList)
      [] ["x".toList] ["y".toList] (by decide) (by decide) (by decide)).1
  rw [show ([mkAnn ("x".toList),
      ({ pd := .dir (".exp".toList) ("b".toList), raw := [] } : SrcLine),
      mkAnn ("y".toList)])
    = (["x".toList].map mkAnn ++
        ({ pd := .dir (".exp".toList) ("b".toList), raw := [] } : SrcLine)
          :: ["y".toList].map mkAnn) from rfl]
  rw [h]
  decide

theorem genAnnot_present (p : PState) (raw : Str) (st stB : GenSt)
    (h : genAnnot p raw st = .ok stB) (hw : ∃ w, fsGet st.fs st.cur = some w) :
    ∃ w, fsGet stB.fs stB.cur = some w := by
  obtain ⟨w, hw⟩ := hw
  unfold genAnnot at h
  cases ha : annotOf raw with
  | none =>
    simp only [ha] at h
    injection h with h1
    subst h1
    exact ⟨w, hw⟩
  | some t =>
    simp only [ha] at h
    cases he : expandLine p t st.budget with
    | error e =>
      simp only [he] at h
      exact Except.noConfusion h
    | ok ob =>
      obtain ⟨out, b1⟩ := ob
      simp only [he] at h
      cases hwr : wr b1 1 with
      | error e =>
        simp only [hwr] at h
        exact Except.noConfusion h
      | ok b2 =>
        simp only [hwr] at h
        injection h with h1
        subst h1
        exact ⟨w ++ (out ++ ['\n']), fsGet_fsApp_self st.fs st.cur _ w hw⟩

theorem genLoop_cur_present (p : PState) (fileroot : Str) :
    ∀ (lines : List SrcLine) (st : GenSt),
    (∃ w, fsGet st.fs st.cur = some w) →
    ∀ (code : Err) (st2 : GenSt), genLoop p fileroot lines st = (code, st2) →
      ∃ w, fsGet st2.fs st2.cur = some w
  | [], st, hw, code, st2, h => by
    simp only [genLoop] at h
    injection h with h1 h2
    subst h2
    exact hw
  | l :: ls, st, hw, code, st2, h => by
    cases hl : l.pd with
    | fail e =>
      simp only [genLoop, hl] at h
      injection h with h1 h2
      subst h2
      exact hw
    | dir name payload =>
      simp only [genLoop, hl] at h
      by_cases hx : name = ".exp".toList
      · rw [if_pos hx] at h
        exact genLoop_cur_present p fileroot ls _
          ⟨[], fsGet_fsSet_self st.fs (expfilename fileroot payload) []⟩ code st2 h
      · rw [if_neg hx] at h
        cases ha : genAnnot p l.raw st with
        | error e =>
          simp only [ha] at h
          injection h with h1 h2
          subst h2
          exact hw
        | ok stB =>
          simp only [ha] at h
          exact genLoop_cur_present p fileroot ls stB
            (genAnnot_present p l.raw st stB ha hw) code st2 h
    | nodir =>
      simp only [genLoop, hl] at h
      cases ha : genAnnot p l.raw st with
      | error e =>
        simp only [ha] at h
        injection h with h1 h2
        subst h2
        exact hw
      | ok stB =>
        simp only [ha] at h
        exact genLoop_cur_present p fileroot ls stB
          (genAnnot_present p l.raw st stB ha hw) code st2 h

/-- C9: any fatal exit of the expected-output generation -- the write
failure included -- closes and deletes the expected-output file being
written, so no partial file remains; reaching the end of the input is not
an error: the final file is closed and kept and the pass reports
success. -/
theorem claim_c9_error_cleanup (p : PState) (fileroot extra0 : Str)
    (lines : List SrcLine) (fs0 : FS) (pr0 : List Str) (budget : Option Nat)
    (code : Err) (st : GenSt)
    (h : genLoop p fileroot lines (genInit fileroot extra0 fs0 pr0 budget)
           = (code, st)) :
    (code ≠ .out_of_range →
       p_gen_expfile p fileroot extra0 lines fs0 pr0 budget
          = (.error code, fsRemove st.fs st.cur, st.printed)
       ∧ fsGet (fsRemove st.fs st.cur) st.cur = none)
    ∧ (code = .out_of_range →
       p_gen_expfile p fileroot extra0 lines fs0 pr0 budget
          = (.ok (), st.fs, st.printed ++ [st.cur])
       ∧ ∃ w, fsGet st.fs st.cur = some w) := by
  constructor
  · intro hne
    constructor
    · simp only [p_gen_expfile, h]
      rw [if_neg hne]
    · exact fsGet_fsRemove_self st.fs st.cur
  · intro he
    subst he
    constructor
    · simp [p_gen_expfile, h]
    · exact genLoop_cur_present p fileroot lines _
        ⟨[], by simp [genInit, fsGet_fsSet_self]⟩ _ st h

theorem claim_c9_witness :
    genLoop ⟨[], [], 0⟩ ("r".toList) [mkAnn ("hello".toList)]
        (genInit ("r".toList) [] [] [] (some 2))
      = (.file_write, ⟨[("r.exp".toList, [])], [], "r.exp".toList, some 2⟩) ∧
    p_gen_expfile ⟨[], [], 0⟩ ("r".toList) [] [mkAnn ("hello".toList)] [] [] (some 2)
      = (.error .file_write, [], []) ∧
    fsGet ([] : FS) ("r.exp".toList) = none := by
  refine ⟨by decide, ?_, by decide⟩
  have h := (claim_c9_error_cleanup ⟨[], [], 0⟩ ("r".toList) [] [mkAnn ("hello".toList)]
      [] [] (some 2) .file_write ⟨[("r.exp".toList, [])], [], "r.exp".toList, some 2⟩
      (by decide)).1 (by decide)
  rw [h.1]
  decide

theorem expfilename_ne_pt (root2 extra2 root1 : Str) :
    expfilename root2 extra2 ≠ ptFilename root1 := by
  intro h
  have h1 : (expfilename root2 extra2).getLast? = some 'p' := by
    unfold expfilename
    rw [show (".exp".toList) = ['.', 'e', 'x'] ++ ['p'] from rfl, ← List.append_assoc]
    exact List.getLast?_concat _
  have h2 : (ptFilename root1).getLast? = some 't' := by
    unfold ptFilename
    rw [show (".pt".toList) = ['.', 'p'] ++ ['t'] from rfl, ← List.append_assoc]
    exact List.getLast?_concat _
  rw [h, h2] at h1
  exact absurd h1 (by decide)

theorem genAnnot_other (p : PState) (raw : Str) (st stB : GenSt) (q : Str)
    (h : genAnnot p raw st = .ok stB) (hq : st.cur ≠ q) :
    fsGet stB.fs q = fsGet st.fs q ∧ stB.cur = st.cur := by
  unfold genAnnot at h
  cases ha : annotOf raw with
  | none =>
    simp only [ha] at h
    injection h with h1
    subst h1
    exact ⟨rfl, rfl⟩
  | some t =>
    simp only [ha] at h
    cases he : expandLine p t st.budget with
    | error e =>
      simp only [he] at h
      exact Except.noConfusion h
    | ok ob =>
      obtain ⟨out, b1⟩ := ob
      simp only [he] at h
      cases hwr : wr b1 1 with
      | error e =>
        simp only [hwr] at h
        exact Except.noConfusion h
      | ok b2 =>
        simp only [hwr] at h
        injection h with h1
        subst h1
        exact ⟨fsGet_fsApp_other st.fs st.cur q _ hq, rfl⟩

theorem genLoop_other (p : PState) (fileroot q : Str)
    (hq : ∀ extra, expfilename fileroot extra ≠ q) :
    ∀ (lines : List SrcLine) (st : GenSt), st.cur ≠ q →
    ∀ (code : Err) (st2 : GenSt), genLoop p fileroot lines st = (code, st2) →
      fsGet st2.fs q = fsGet st.fs q ∧ st2.cur ≠ q
  | [], st, hc, code, st2, h => by
    simp only [genLoop] at h
    injection h with h1 h2
    subst h2
    exact ⟨rfl, hc⟩
  | l :: ls, st, hc, code, st2, h => by
    cases hl : l.pd with
    | fail e =>
      simp only [genLoop, hl] at h
      injection h with h1 h2
      subst h2
      exact ⟨rfl, hc⟩
    | dir name payload =>
      simp only [genLoop, hl] at h
      by_cases hx : name = ".exp".toList
      · rw [if_pos hx] at h
        have hrec := genLoop_other p fileroot q hq ls _ (hq payload) code st2 h
        refine ⟨?_, hrec.2⟩
        rw [hrec.1]
        exact fsGet_fsSet_other st.fs (expfilename fileroot payload) q [] (hq payload)
      · rw [if_neg hx] at h
        cases ha : genAnnot p l.raw st with
        | error e =>
          simp only [ha] at h
          injection h with h1 h2
          subst h2
          exact ⟨rfl, hc⟩
        | ok stB =>
          simp only [ha] at h
          have hann := genAnnot_other p l.raw st stB q ha hc
          have hrec := genLoop_other p fileroot q hq ls stB (hann.2 ▸ hc) code st2 h
          exact ⟨hrec.1.trans hann.1, hrec.2⟩
    | nodir =>
      simp only [genLoop, hl] at h
      cases ha : genAnnot p l.raw st with
      | error e =>
        simp only [ha] at h
        injection h with h1 h2
        subst h2
        exact ⟨rfl, hc⟩
      | ok stB =>
        simp only [ha] at h
        have hann := genAnnot_other p l.raw st stB q ha hc
        have hrec := genLoop_other p fileroot q hq ls stB (hann.2 ▸ hc) code st2 h
        exact ⟨hrec.1.trans hann.1, hrec.2⟩

theorem p_gen_preserves_other (p : PState) (fileroot extra0 : Str)
    (lines : List SrcLine) (fs0 : FS) (pr0 : List Str) (budget : Option Nat)
    (q : Str) (hq : ∀ extra, expfilename fileroot extra ≠ q) :
    fsGet (p_gen_expfile p fileroot extra0 lines fs0 pr0 budget).2.1 q
      = fsGet fs0 q := by
  cases hgl : genLoop p fileroot lines (genInit fileroot extra0 fs0 pr0 budget) with
  | mk code st =>
    have hother := genLoop_other p fileroot q hq lines
      (genInit fileroot extra0 fs0 pr0 budget) (hq extra0) code st hgl
    have hinit : fsGet (genInit fileroot extra0 fs0 pr0 budget).fs q = fsGet fs0 q :=
      fsGet_fsSet_other fs0 (expfilename fileroot extra0) q [] (hq extra0)
    by_cases hc : code = .out_of_range
    · subst hc
      simp only [p_gen_expfile, hgl, if_pos rfl]
      exact hother.1.trans hinit
    · simp only [p_gen_expfile, hgl, if_neg hc]
      rw [fsGet_fsRemove_other st.fs st.cur q hother.2]
      exact hother.1.trans hinit

theorem p_start_pt_present (e : Encoder) (fileroot : Str) (expLines : List SrcLine)
    (budget : Option Nat) :
    ∀ (dirs : List (Str × Str)) (p : PState) (fs : FS) (w : Str),
    fsGet fs (ptFilename fileroot) = some w →
    ∃ w2, fsGet (p_start_loop e fileroot expLines budget dirs p fs).2.1
        (ptFilename fileroot) = some w2
  | [], p, fs, w, hw => ⟨w, by simpa [p_start_loop] using hw⟩
  | (name, payload) :: ds, p, fs, w, hw => by
    simp only [p_start_loop]
    cases hp : p_process p e name payload with
    | mk bytes p2 =>
      simp only [hp]
      by_cases hstop : bytes = Err.code .stop_process
      · rw [if_pos hstop]
        cases hg : p_gen_expfile p2 fileroot payload expLines fs [] budget with
        | mk r rest =>
          obtain ⟨fs2, pr⟩ := rest
          have hpre := p_gen_preserves_other p2 fileroot payload expLines fs [] budget
            (ptFilename fileroot) (fun extra => expfilename_ne_pt fileroot extra fileroot)
          rw [hg] at hpre
          cases r with
          | ok u => exact ⟨w, by simpa using hpre.trans hw⟩
          | error er => exact ⟨w, by simpa using hpre.trans hw⟩
      · rw [if_neg hstop]
        by_cases hneg : bytes < 0
        · rw [if_pos hneg]
          exact ⟨w, hw⟩
        · rw [if_neg hneg]
          exact p_start_pt_present e fileroot expLines budget ds p2 _ _
            (fsGet_fsApp_self fs (ptFilename fileroot) _ w hw)

/-- C8 as stated is false on the code: after an encode failure in pass one
the run aborts, but the already-open .pt output file is only closed by
p_close_files, never removed, so the partial binary output remains. -/
theorem claim_c8_counterexample :
    parseRun ⟨[], [], 0⟩ (encConst (-1)) ("root".toList)
        [("cbr".toList, "5".toList)] [] none []
      = (Err.code .pt_lib, [(ptFilename ("root".toList), [])], [])
    ∧ fsGet [(ptFilename ("root".toList), ([] : Str))] (ptFilename ("root".toList))
        ≠ none := by
  constructor <;> decide

/-- C8 amended: any parse or encode failure in pass one aborts the run at
once -- the failing status is returned, no further directive is processed,
no additional bytes are written and no expected-output name is printed --
but the open .pt output file is closed, not removed: the partial binary
file always remains in the file system. -/
theorem claim_c8_amended (p : PState) (e : Encoder) (fileroot : Str)
    (expLines : List SrcLine) (budget : Option Nat) :
    (∀ (name payload : Str) (ds : List (Str × Str)) (b : Int) (p2 : PState) (fs : FS),
        p_process p e name payload = (b, p2) → b < 0 → b ≠ Err.code .stop_process →
        p_start_loop e fileroot expLines budget ((name, payload) :: ds) p fs
          = (b, fs, [], p2))
    ∧ (∀ (dirs : List (Str × Str)) (fs0 : FS), ∃ w,
        fsGet (parseRun p e fileroot dirs expLines budget fs0).2.1
            (ptFilename fileroot) = some w) := by
  constructor
  · intro name payload ds b p2 fs hp hneg hnstop
    simp only [p_start_loop, hp]
    rw [if_neg hnstop, if_pos hneg]
  · intro dirs fs0
    have hpt := p_start_pt_present e fileroot expLines budget dirs p
      (fsSet fs0 (ptFilename fileroot) []) []
      (fsGet_fsSet_self fs0 (ptFilename fileroot) [])
    obtain ⟨w2, hw2⟩ := hpt
    refine ⟨w2, ?_⟩
    unfold parseRun
    cases hps : p_start_loop e fileroot expLines budget dirs p
        (fsSet fs0 (ptFilename fileroot) []) with
    | mk code rest =>
      obtain ⟨fs2, pr, pend⟩ := rest
      simp only [hps]
      rw [hps] at hw2
      simpa using hw2

theorem claim_c8_witness :
    p_process ⟨[], [], 0⟩ (encConst (-1)) ("cbr".toList) ("5".toList)
      = (Err.code .pt_lib, ⟨[], [], 0⟩) ∧
    p_start_loop (encConst (-1)) ("root".toList) [] none
        [("cbr".toList, "5".toList)] ⟨[], [], 0⟩ [(ptFilename ("root".toList), [])]
      = (Err.code .pt_lib, [(ptFilename ("root".toList), [])], [], ⟨[], [], 0⟩) := by
  refine ⟨by decide, ?_⟩
  exact (claim_c8_amended ⟨[], [], 0⟩ (encConst (-1)) ("root".toList) [] none).1
    ("cbr".toList) ("5".toList) [] (Err.code .pt_lib) ⟨[], [], 0⟩
    [(ptFilename ("root".toList), [])] (by decide) (by decide) (by decide)

theorem claim_c6_witness :
    parse_tnt ("t n t".toList) = .ok (5, 3)
    ∧ parse_tnt ("...tt..".toList) = .ok (3, 2) :=
  ⟨(claim_c6_parse_tnt []).2.2.1, (claim_c6_parse_tnt []).2.2.2⟩

end Pttc
